import Mathlib

/-!
# invpn: the mesh controller `InVpn` (src/InVpn.cpp)

A shallow embedding of the controller's slots.  Qt containers become lists,
`qint64`/`quint16` become integers with explicit wrap-around, and every
observable action of a slot (emitting the `broadcast` signal, `push` on a
node, `connectToHost`, ...) is recorded in the list of effects the slot
returns next to the new controller state.
-/

/-- One `char` of a `QByteArray`. -/
abbrev Byte := Fin 256

/-- A Qt byte array. -/
abbrev QByteArray := List Byte

/-- A Qt string, as its list of characters (`init_seed` may also be null,
which is `none` in `Option QString`). -/
abbrev QString := List Char

/-- An `InVpnNode *`, as an opaque handle; the null pointer is `none` in
`Option NodePtr`. -/
abbrev NodePtr := Nat

/-- A `QSslSocket *` handle. -/
abbrev Sock := Nat

/-- `QByteArray::size`. -/
def QByteArray.size (b : QByteArray) : Nat := b.length

/-- `QByteArray::mid(pos, len)`. -/
def QByteArray.mid (b : QByteArray) (pos len : Nat) : QByteArray := (b.drop pos).take len

/-- `QByteArray::at(i)`, `none` when out of range. -/
def QByteArray.at (b : QByteArray) (i : Nat) : Option Byte := b.get? i

/-- `QByteArray(n, c)`. -/
def QByteArray.fill (n : Nat) (c : Byte) : QByteArray := List.replicate n c

/-- A `QMap<K, V>`, as its list of (key, value) entries.  Every operation
below reads the first entry for a key and `insert` replaces it in place, so a
key never has two entries in a map built from `QMap.empty`. -/
structure QMap (K V : Type) where
  entries : List (K × V)
deriving DecidableEq, Repr

namespace QMap

variable {K V : Type} [DecidableEq K]

/-- The empty map. -/
def empty : QMap K V := ⟨[]⟩

/-- The entry stored for a key, when there is one. -/
def find? (m : QMap K V) (k : K) : Option V :=
  (m.entries.find? (fun e => decide (e.1 = k))).map Prod.snd

/-- `QMap::contains(key)`. -/
def contains (m : QMap K V) (k : K) : Bool := (m.find? k).isSome

/-- `QMap::value(key)`: the stored value, a default-constructed one when the
key is absent. -/
def value [Inhabited V] (m : QMap K V) (k : K) : V := (m.find? k).getD default

/-- Replace-or-append on the entry list. -/
def insertEntries : List (K × V) → K → V → List (K × V)
  | [], k, v => [(k, v)]
  | (k', v') :: t, k, v => if k' = k then (k, v) :: t else (k', v') :: insertEntries t k v

/-- `QMap::insert(key, value)`: the value of an existing key is replaced. -/
def insert (m : QMap K V) (k : K) (v : V) : QMap K V := ⟨insertEntries m.entries k v⟩

/-- Assignment through `map[key]`, as in `routes[mac].stamp = stamp`: the
reference is to the stored value (a default-constructed one is inserted first
when the key is absent) and `f` is the assignment applied to it. -/
def assign [Inhabited V] (m : QMap K V) (k : K) (f : V → V) : QMap K V :=
  m.insert k (f (m.value k))

end QMap

/-- `struct invpn_route_info`: the next hop and the freshness stamp of a
route (`peer` is an `InVpnNode *`, `stamp` a `qint64`). -/
structure invpn_route_info where
  peer : Option NodePtr
  stamp : Int
deriving DecidableEq, Repr

instance : Inhabited invpn_route_info := ⟨⟨none, 0⟩⟩

/-- Modelled from the spec: class `InVpnNode` (InVpnNode.hpp and InVpnNode.cpp
are not among the sources).  A peer has its remote MAC and an optional active
link. -/
structure InVpnNode where
  mac : QByteArray
  link : Option Sock
deriving DecidableEq, Repr

/-- The node `nodes.value(m)` stands for when `m` is absent (a null pointer
in the source; `socketReady` inserts the key before it reads it). -/
instance : Inhabited InVpnNode := ⟨⟨[], none⟩⟩

/-- Modelled from the spec: `InVpnNode::isLinked`, whether the peer has an
active link. -/
def InVpnNode.isLinked (n : InVpnNode) : Bool := n.link.isSome

/-- Modelled from the spec: `InVpnNode::setLink`, which attaches the link
only if the peer has no current link and returns false otherwise. -/
def InVpnNode.setLink (n : InVpnNode) (s : Sock) : Bool × InVpnNode :=
  if n.link.isSome then (false, n) else (true, { n with link := some s })

/-- What a slot does to the outside of the controller. -/
inductive Effect where
  /-- The signal `broadcast(pkt)` is emitted; it is connected to the `push`
  slot of every node of the registry. -/
  | broadcast (pkt : QByteArray)
  /-- Call of `peer->push(pkt)`. -/
  | push (peer : NodePtr) (pkt : QByteArray)
  /-- Call of `s->connectToHost(ip, port)` on a new socket, followed by
  `s->setPeerVerifyName(rmac)`. -/
  | connectToHost (ip : QString) (port : Nat) (rmac : QString)
  /-- Call of `s->disconnect()`. -/
  | disconnect (s : Sock)
  /-- Call of `s->deleteLater()`. -/
  | deleteLater (s : Sock)
  /-- The `broadcast` signal is connected to the `push` slot of the node
  registered under `m`. -/
  | connectBroadcast (m : QByteArray)
  /-- Call of `nodes.value(m)->setLink(s)`. -/
  | setLink (m : QByteArray) (s : Sock)
deriving DecidableEq, Repr

/-- The members of class `InVpn` the slots below read or write. -/
structure InVpn where
  mac : QByteArray
  bc_last_id : Int
  routes : QMap QByteArray invpn_route_info
  nodes : QMap QByteArray InVpnNode
  init_seed : Option QString
deriving DecidableEq, Repr

namespace InVpn

/-- `InVpn::announcedRoute(mac, peer, stamp, pkt)`. -/
def announcedRoute (self : InVpn) (mac : QByteArray) (peer : Option NodePtr) (stamp : Int)
    (pkt : QByteArray) : InVpn × List Effect :=
  if self.routes.contains mac then
    if (self.routes.value mac).stamp ≥ stamp then (self, [])
    else
      let r1 := self.routes.assign mac (fun r => { r with stamp := stamp })
      let r2 := r1.assign mac (fun r => { r with peer := peer })
      ({ self with routes := r2 }, [Effect.broadcast pkt])
  else
    let s : invpn_route_info := { peer := peer, stamp := stamp }
    ({ self with routes := self.routes.insert mac s }, [Effect.broadcast pkt])

/-- The largest `qint64`. -/
def INT64_MAX : Int := 9223372036854775807

/-- The smallest `qint64`. -/
def INT64_MIN : Int := -9223372036854775808

/-- The value is one a `qint64` can hold. -/
def isInt64 (x : Int) : Prop := INT64_MIN ≤ x ∧ x ≤ INT64_MAX

instance (x : Int) : Decidable (isInt64 x) := by
  unfold isInt64
  infer_instance

/-- A 64-bit two's-complement result: the integer reduced into the `qint64`
range modulo 2^64 (what `bc_last_id++` leaves in the variable). -/
def wrapInt64 (x : Int) : Int :=
  (x + 9223372036854775808) % 18446744073709551616 - 9223372036854775808

/-- Conversion of a size to `quint16`. -/
def quint16 (n : Nat) : Nat := n % 65536

/-- Conversion of an `int` to `quint16`, as at the call `connectToHost(ip, port)`. -/
def quint16OfInt (n : Int) : Nat := (n % 65536).toNat

/-- The low byte of a number, as a `char`. -/
def byte (n : Nat) : Byte := ⟨n % 256, Nat.mod_lt _ (by decide)⟩

/-- The two bytes in memory of `qToBigEndian(len)` for a `quint16 len`, as
`pkt.prepend((char*)&len, 2)` reads them. -/
def qToBigEndian16 (len : Nat) : QByteArray := [byte (len / 256), byte len]

/-- The eight bytes in memory of `qToBigEndian(ts)` for a `qint64 ts`
(two's complement), as `pkt.append((char*)&ts, 8)` reads them. -/
def qToBigEndian64 (ts : Int) : QByteArray :=
  let u := (ts % 18446744073709551616).toNat
  [byte (u / 72057594037927936), byte (u / 281474976710656), byte (u / 1099511627776),
   byte (u / 4294967296), byte (u / 16777216), byte (u / 65536), byte (u / 256), byte u]

/-- `InVpn::broadcastId()`; `now` is the reading of
`QDateTime::currentDateTimeUtc().toMSecsSinceEpoch()`. -/
def broadcastId (self : InVpn) (now : Int) : Int × InVpn :=
  if now ≤ self.bc_last_id then
    let self1 := { self with bc_last_id := wrapInt64 (self.bc_last_id + 1) }
    (self1.bc_last_id, self1)
  else
    let self1 := { self with bc_last_id := now }
    (now, self1)

/-- `InVpn::announce()`, with the clock reading `now`. -/
def announce (self : InVpn) (now : Int) : InVpn × List Effect :=
  let pkt : QByteArray := []
  let (id, self1) := self.broadcastId now
  let ts := qToBigEndian64 id
  let pkt := pkt ++ [(1 : Byte)]
  let pkt := pkt ++ ts
  let pkt := pkt ++ self1.mac
  let pkt := (0 : Byte) :: pkt
  let len := quint16 (QByteArray.size pkt)
  let pkt := qToBigEndian16 len ++ pkt
  (self1, [Effect.broadcast pkt])

/-- `InVpn::route(pkt)`.  Reading `pkt.at(2)` beyond the end of the array
is taken as "not 0x80". -/
def route (self : InVpn) (pkt : QByteArray) : List Effect :=
  if pkt.at 2 ≠ some (0x80 : Byte) then []
  else
    let dst_mac := pkt.mid 3 6
    if !self.routes.contains dst_mac then []
    else
      match (self.routes.value dst_mac).peer with
      | none => []
      | some peer => [Effect.push peer pkt]

/-- `InVpn::packet(src_hw, dst_hw, data)`, with the clock reading `now`
that `broadcastId` takes when it is called. -/
def packet (self : InVpn) (now : Int) (src_hw dst_hw data : QByteArray) : InVpn × List Effect :=
  if src_hw ≠ self.mac then (self, [])
  else if dst_hw = QByteArray.fill 6 (0xff : Byte) then
    let pkt : QByteArray := []
    let (id, self1) := self.broadcastId now
    let ts := qToBigEndian64 id
    let pkt := pkt ++ ts
    let pkt := pkt ++ src_hw
    let pkt := pkt ++ data
    let pkt := (0x81 : Byte) :: pkt
    let len := quint16 (QByteArray.size pkt)
    let pkt := qToBigEndian16 len ++ pkt
    (self1, [Effect.broadcast pkt])
  else if !self.routes.contains dst_hw then (self, [])
  else
    let pkt : QByteArray := []
    let pkt := pkt ++ dst_hw
    let pkt := pkt ++ src_hw
    let pkt := pkt ++ data
    let pkt := (0x80 : Byte) :: pkt
    let len := quint16 (QByteArray.size pkt)
    let pkt := qToBigEndian16 len ++ pkt
    (self, self.route pkt)

/-- `InVpn::socketReady()`.  `sender` is the socket the signal came from
(`none` when the cast fails) and `m` the bytes obtained from the Common Name
of its peer certificate. -/
def socketReady (self : InVpn) (sender : Option Sock) (m : QByteArray) : InVpn × List Effect :=
  match sender with
  | none => (self, [])
  | some s =>
    let e1 : List Effect :=
      if m = self.mac then [Effect.disconnect s, Effect.deleteLater s] else []
    let (nodes1, e2) : QMap QByteArray InVpnNode × List Effect :=
      if !self.nodes.contains m then
        (self.nodes.insert m { mac := m, link := none }, [Effect.connectBroadcast m])
      else (self.nodes, [])
    let (ok, node) := (nodes1.value m).setLink s
    let nodes2 := nodes1.insert m node
    let e3 : List Effect :=
      if !ok then [Effect.setLink m s, Effect.disconnect s, Effect.deleteLater s]
      else [Effect.setLink m s]
    ({ self with nodes := nodes2 }, e1 ++ e2 ++ e3)

/-- `QString::indexOf(ch)`; `none` stands for -1. -/
def QString.indexOf : QString → Char → Option Nat
  | [], _ => none
  | x :: t, c => if x = c then some 0 else (QString.indexOf t c).map (· + 1)

/-- `QString::lastIndexOf(ch)`; `none` stands for -1. -/
def QString.lastIndexOf : QString → Char → Option Nat
  | [], _ => none
  | x :: t, c =>
    match QString.lastIndexOf t c with
    | some i => some (i + 1)
    | none => if x = c then some 0 else none

/-- `QString::mid(pos, n)`. -/
def QString.mid (s : QString) (pos n : Nat) : QString := (s.drop pos).take n

/-- `QString::mid(pos)`: the rest of the string from `pos`. -/
def QString.midFrom (s : QString) (pos : Nat) : QString := s.drop pos

/-- `InVpn::tryConnect()`.  The two Qt library functions it calls are
parameters: `toInt` is `QString::toInt` and `isNull tip` tells whether
`QHostAddress(tip).isNull()`.  The address connected to is recorded as the
string it was parsed from.  `tip[0]` on an empty `tip` is taken as "not an
opening bracket" (the test then stops before `tip.at(tip.size()-1)`). -/
def tryConnect (toInt : QString → Int) (isNull : QString → Bool) (self : InVpn) : List Effect :=
  let count := (self.nodes.entries.filter (fun e => e.2.isLinked)).length
  if count ≥ 2 then []
  else
    match self.init_seed with
    | none => []
    | some init_seed =>
      match QString.indexOf init_seed '@' with
      | none => []
      | some pos =>
        let rmac := QString.mid init_seed 0 pos
        let addr := QString.midFrom init_seed (pos + 1)
        match QString.lastIndexOf addr ':' with
        | none => []
        | some pos =>
          let port := toInt (QString.midFrom addr (pos + 1))
          let tip := QString.mid addr 0 pos
          let tip :=
            if tip.head? = some '[' && tip.getLast? = some ']' then
              QString.mid tip 1 (tip.length - 2)
            else tip
          if isNull tip then []
          else [Effect.connectToHost tip (quint16OfInt port) rmac]

/-- The arguments of one call of `announcedRoute`. -/
structure RouteCall where
  mac : QByteArray
  peer : Option NodePtr
  stamp : Int
  pkt : QByteArray
deriving DecidableEq, Repr

/-- A sequence of `announcedRoute` calls, in order: the final controller and
the calls that were accepted (those that re-broadcast their packet). -/
def announcedRouteAll (self : InVpn) : List RouteCall → InVpn × List RouteCall
  | [] => (self, [])
  | c :: rest =>
    let r := self.announcedRoute c.mac c.peer c.stamp c.pkt
    let rs := announcedRouteAll r.1 rest
    (rs.1, if r.2 = [Effect.broadcast c.pkt] then c :: rs.2 else rs.2)

/-- A sequence of `broadcastId` calls, one per clock reading, in order: the
ids returned and the final controller. -/
def broadcastIdAll (self : InVpn) : List Int → List Int × InVpn
  | [] => ([], self)
  | now :: rest =>
    let r := self.broadcastId now
    let rs := broadcastIdAll r.2 rest
    (r.1 :: rs.1, rs.2)

/-- No call of the sequence increments a `bc_last_id` that is already the
largest `qint64`. -/
def noOverflow (self : InVpn) : List Int → Prop
  | [] => True
  | now :: rest =>
    (now ≤ self.bc_last_id → self.bc_last_id < INT64_MAX) ∧ noOverflow (self.broadcastId now).2 rest

/-- Whether a run overflows can be computed. -/
instance decidableNoOverflow : (self : InVpn) → (nows : List Int) → Decidable (noOverflow self nows)
  | _, [] => isTrue trivial
  | self, now :: rest =>
    have := decidableNoOverflow (self.broadcastId now).2 rest
    inferInstanceAs (Decidable ((now ≤ self.bc_last_id → self.bc_last_id < INT64_MAX) ∧
      noOverflow (self.broadcastId now).2 rest))

/-- The number a frame announces in its first two bytes, read big-endian. -/
def frameLength : QByteArray → Option Nat
  | b0 :: b1 :: _ => some (b0.val * 256 + b1.val)
  | _ => none

/-- A byte string is one complete frame of the given kind: two bytes of
length, big-endian, that count exactly the bytes after them, of which the
first is the kind. -/
def isFrame (kind : Byte) : QByteArray → Bool
  | b0 :: b1 :: k :: payload => decide (b0.val * 256 + b1.val = 1 + payload.length) && decide (k = kind)
  | _ => false

/-- The byte string an effect puts on the wire, if it puts one. -/
def frameOf : Effect → Option QByteArray
  | Effect.broadcast pkt => some pkt
  | Effect.push _ pkt => some pkt
  | _ => none

end InVpn

/-! ## The map operations -/

namespace QMap

variable {K V : Type} [DecidableEq K]

theorem find?_insert_self (m : QMap K V) (k : K) (v : V) :
    (m.insert k v).find? k = some v := by
  obtain ⟨l⟩ := m
  simp only [insert, find?]
  induction l with
  | nil => simp [insertEntries]
  | cons e t ih =>
    obtain ⟨k', v'⟩ := e
    by_cases h : k' = k
    · simp [insertEntries, h]
    · simp only [insertEntries, h, if_false, List.find?_cons, decide_False]
      exact ih

theorem find?_insert_of_ne (m : QMap K V) (k k' : K) (v : V) (h : k' ≠ k) :
    (m.insert k v).find? k' = m.find? k' := by
  obtain ⟨l⟩ := m
  simp only [insert, find?]
  induction l with
  | nil =>
    have : ¬ k = k' := fun e => h e.symm
    simp [insertEntries, this]
  | cons e t ih =>
    obtain ⟨k0, v0⟩ := e
    by_cases h0 : k0 = k
    · subst h0
      have : ¬ k0 = k' := fun e => h e.symm
      simp [insertEntries, this]
    · by_cases h1 : k0 = k'
      · subst h1
        simp [insertEntries, h0]
      · simp only [insertEntries, h0, if_false, List.find?_cons, h1, decide_False]
        exact ih

theorem insert_insert_self (m : QMap K V) (k : K) (v w : V) :
    (m.insert k v).insert k w = m.insert k w := by
  obtain ⟨l⟩ := m
  simp only [insert, QMap.mk.injEq]
  induction l with
  | nil => simp [insertEntries]
  | cons e t ih =>
    obtain ⟨k', v'⟩ := e
    by_cases h : k' = k
    · simp [insertEntries, h]
    · simp [insertEntries, h, ih]

theorem contains_iff (m : QMap K V) (k : K) :
    m.contains k = true ↔ ∃ v, m.find? k = some v := by
  simp [contains, Option.isSome_iff_exists]

theorem contains_eq_false_iff (m : QMap K V) (k : K) :
    m.contains k = false ↔ m.find? k = none := by
  simp [contains]

theorem value_of_find? [Inhabited V] (m : QMap K V) (k : K) (v : V) (h : m.find? k = some v) :
    m.value k = v := by
  simp [value, h]

end QMap

namespace InVpn

/-- What an accepted announce does: the entry is overwritten, the rest of the
state is kept and the packet is broadcast once. -/
theorem announcedRoute_of_fresh (self : InVpn) (mac : QByteArray) (peer : Option NodePtr)
    (stamp : Int) (pkt : QByteArray)
    (h : ∀ r, self.routes.find? mac = some r → r.stamp < stamp) :
    self.announcedRoute mac peer stamp pkt
      = ({ self with routes := self.routes.insert mac ⟨peer, stamp⟩ }, [Effect.broadcast pkt]) := by
  unfold announcedRoute
  cases hf : self.routes.find? mac with
  | none =>
    have hc : self.routes.contains mac = false := (QMap.contains_eq_false_iff _ _).2 hf
    simp [hc]
  | some r =>
    have hc : self.routes.contains mac = true := (QMap.contains_iff _ _).2 ⟨r, hf⟩
    have hv : self.routes.value mac = r := QMap.value_of_find? _ _ _ hf
    have hlt : ¬ r.stamp ≥ stamp := not_le.mpr (h r hf)
    simp only [hc, if_true, hv, hlt, if_false, QMap.assign]
    have hv1 : (self.routes.insert mac { r with stamp := stamp }).value mac
        = { r with stamp := stamp } :=
      QMap.value_of_find? _ _ _ (QMap.find?_insert_self _ _ _)
    rw [hv1, QMap.insert_insert_self]

/-- What a stale announce does: nothing. -/
theorem announcedRoute_of_stale (self : InVpn) (mac : QByteArray) (peer : Option NodePtr)
    (stamp : Int) (pkt : QByteArray) (r : invpn_route_info)
    (hf : self.routes.find? mac = some r) (h : stamp ≤ r.stamp) :
    self.announcedRoute mac peer stamp pkt = (self, []) := by
  unfold announcedRoute
  have hc : self.routes.contains mac = true := (QMap.contains_iff _ _).2 ⟨r, hf⟩
  have hv : self.routes.value mac = r := QMap.value_of_find? _ _ _ hf
  simp [hc, hv, h]

/-- C1: `announcedRoute` accepts an update (re-broadcasts the packet) if and
only if the table has no entry for the MAC or the incoming stamp is strictly
greater than the stored one.  When accepted, the entry for the MAC becomes
exactly (peer, stamp), every other entry and every other member is unchanged
and the packet is broadcast verbatim exactly once; otherwise the stored stamp
is at least the incoming one, the controller is unchanged and nothing is
broadcast. -/
theorem announcedRoute_observe (self : InVpn) (mac : QByteArray) (peer : Option NodePtr)
    (stamp : Int) (pkt : QByteArray) :
    ((self.announcedRoute mac peer stamp pkt).2 = [Effect.broadcast pkt] ↔
        (self.routes.find? mac = none ∨
          ∃ r, self.routes.find? mac = some r ∧ r.stamp < stamp)) ∧
    ((self.announcedRoute mac peer stamp pkt).2 = [Effect.broadcast pkt] →
        (self.announcedRoute mac peer stamp pkt).1.routes.find? mac
            = some { peer := peer, stamp := stamp } ∧
        (∀ k, k ≠ mac →
          (self.announcedRoute mac peer stamp pkt).1.routes.find? k = self.routes.find? k) ∧
        (self.announcedRoute mac peer stamp pkt).1.mac = self.mac ∧
        (self.announcedRoute mac peer stamp pkt).1.bc_last_id = self.bc_last_id ∧
        (self.announcedRoute mac peer stamp pkt).1.nodes = self.nodes ∧
        (self.announcedRoute mac peer stamp pkt).1.init_seed = self.init_seed) ∧
    ((self.announcedRoute mac peer stamp pkt).2 ≠ [Effect.broadcast pkt] →
        (∃ r, self.routes.find? mac = some r ∧ stamp ≤ r.stamp) ∧
        self.announcedRoute mac peer stamp pkt = (self, [])) := by
  by_cases h : ∀ r, self.routes.find? mac = some r → r.stamp < stamp
  · have e := announcedRoute_of_fresh self mac peer stamp pkt h
    rw [e]
    refine ⟨⟨fun _ => ?_, fun _ => rfl⟩, fun _ => ?_, fun hne => absurd rfl hne⟩
    · cases hf : self.routes.find? mac with
      | none => exact Or.inl rfl
      | some r => exact Or.inr ⟨r, rfl, h r hf⟩
    · exact ⟨QMap.find?_insert_self _ _ _,
        fun k hk => QMap.find?_insert_of_ne _ _ _ _ hk, rfl, rfl, rfl, rfl⟩
  · push_neg at h
    obtain ⟨r, hf, hle⟩ := h
    have e := announcedRoute_of_stale self mac peer stamp pkt r hf hle
    rw [e]
    refine ⟨⟨fun hb => by simp at hb, fun hor => ?_⟩, fun hb => by simp at hb,
      fun _ => ⟨⟨r, hf, hle⟩, rfl⟩⟩
    rcases hor with hn | ⟨r', hf', hlt⟩
    · rw [hn] at hf
      cases hf
    · rw [hf'] at hf
      cases hf
      omega

/-- Every member but the route table is left alone by `announcedRoute`. -/
theorem announcedRoute_frame (self : InVpn) (mac : QByteArray) (peer : Option NodePtr)
    (stamp : Int) (pkt : QByteArray) :
    (self.announcedRoute mac peer stamp pkt).1.mac = self.mac ∧
    (self.announcedRoute mac peer stamp pkt).1.bc_last_id = self.bc_last_id := by
  by_cases h : ∀ r, self.routes.find? mac = some r → r.stamp < stamp
  · rw [announcedRoute_of_fresh self mac peer stamp pkt h]
    exact ⟨rfl, rfl⟩
  · push_neg at h
    obtain ⟨r, hf, hle⟩ := h
    rw [announcedRoute_of_stale self mac peer stamp pkt r hf hle]
    exact ⟨rfl, rfl⟩

/-- The invariants of a run of announces that all name the origin `o`. -/
theorem announcedRouteAll_inv (o : QByteArray) (calls : List RouteCall)
    (h : ∀ c ∈ calls, c.mac = o) (self : InVpn) :
    (∀ c ∈ (self.announcedRouteAll calls).2, c ∈ calls ∧
        ∀ r, self.routes.find? o = some r → r.stamp < c.stamp) ∧
    ((self.announcedRouteAll calls).2.map RouteCall.stamp).Pairwise (· < ·) ∧
    (∀ r0, self.routes.find? o = some r0 →
        ∃ r, (self.announcedRouteAll calls).1.routes.find? o = some r ∧ r0.stamp ≤ r.stamp) ∧
    (∀ c ∈ calls,
        ∃ r, (self.announcedRouteAll calls).1.routes.find? o = some r ∧ c.stamp ≤ r.stamp) ∧
    (∀ r, (self.announcedRouteAll calls).1.routes.find? o = some r →
        (∃ r0, self.routes.find? o = some r0 ∧ r0.stamp = r.stamp) ∨
        ∃ c ∈ calls, c.stamp = r.stamp) := by
  induction calls generalizing self with
  | nil =>
    refine ⟨fun c hc => by simp [announcedRouteAll] at hc, by simp [announcedRouteAll],
      fun r0 h0 => ⟨r0, by simpa [announcedRouteAll] using h0, le_refl _⟩,
      fun c hc => by simp at hc, fun r hr => Or.inl ⟨r, by simpa [announcedRouteAll] using hr, rfl⟩⟩
  | cons c rest ih =>
    have hco : c.mac = o := h c (List.mem_cons_self _ _)
    have hrest : ∀ c' ∈ rest, c'.mac = o := fun c' hc' => h c' (List.mem_cons_of_mem _ hc')
    by_cases hfresh : ∀ r, self.routes.find? o = some r → r.stamp < c.stamp
    · -- the announce is accepted
      have e := announcedRoute_of_fresh self c.mac c.peer c.stamp c.pkt (by rw [hco]; exact hfresh)
      have hs1 : ({ self with routes := self.routes.insert c.mac ⟨c.peer, c.stamp⟩ } : InVpn).routes.find? o
          = some ⟨c.peer, c.stamp⟩ := by
        rw [hco]
        exact QMap.find?_insert_self _ _ _
      obtain ⟨i1, i2, i3, i4, i5⟩ :=
        ih hrest { self with routes := self.routes.insert c.mac ⟨c.peer, c.stamp⟩ }
      simp only [announcedRouteAll, e, if_true]
      refine ⟨?_, ?_, ?_, ?_, ?_⟩
      · intro c' hc'
        rcases List.mem_cons.1 hc' with rfl | hc'
        · exact ⟨List.mem_cons_self _ _, hfresh⟩
        · obtain ⟨hm, hlt⟩ := i1 c' hc'
          refine ⟨List.mem_cons_of_mem _ hm, fun r hr => ?_⟩
          have h1 := hfresh r hr
          have h2 := hlt _ hs1
          simp only at h2
          omega
      · simp only [List.map_cons, List.pairwise_cons]
        refine ⟨fun x hx => ?_, i2⟩
        obtain ⟨c', hc', rfl⟩ := List.mem_map.1 hx
        exact (i1 c' hc').2 _ hs1
      · intro r0 h0
        obtain ⟨r, hr, hle⟩ := i3 _ hs1
        have h1 := hfresh r0 h0
        simp only at hle
        exact ⟨r, hr, by omega⟩
      · intro c' hc'
        rcases List.mem_cons.1 hc' with rfl | hc'
        · exact i3 _ hs1
        · exact i4 c' hc'
      · intro r hr
        rcases i5 r hr with ⟨r0, h0, he⟩ | ⟨c', hc', he⟩
        · rw [hs1] at h0
          cases h0
          exact Or.inr ⟨c, List.mem_cons_self _ _, he⟩
        · exact Or.inr ⟨c', List.mem_cons_of_mem _ hc', he⟩
    · -- the announce is stale
      push_neg at hfresh
      obtain ⟨r0, hf, hle⟩ := hfresh
      have e := announcedRoute_of_stale self c.mac c.peer c.stamp c.pkt r0 (by rw [hco]; exact hf) hle
      obtain ⟨i1, i2, i3, i4, i5⟩ := ih hrest self
      have hno : ¬ (([] : List Effect) = [Effect.broadcast c.pkt]) := by simp
      simp only [announcedRouteAll, e, hno, if_false]
      refine ⟨?_, i2, i3, ?_, ?_⟩
      · intro c' hc'
        exact ⟨List.mem_cons_of_mem _ (i1 c' hc').1, (i1 c' hc').2⟩
      · intro c' hc'
        rcases List.mem_cons.1 hc' with rfl | hc'
        · obtain ⟨r, hr, hle'⟩ := i3 r0 hf
          exact ⟨r, hr, by omega⟩
        · exact i4 c' hc'
      · intro r hr
        rcases i5 r hr with h0 | ⟨c', hc', he⟩
        · exact Or.inl h0
        · exact Or.inr ⟨c', List.mem_cons_of_mem _ hc', he⟩

/-- Presenting an announce a second time right after itself is stale. -/
theorem announcedRoute_replay_stale (self : InVpn) (o : QByteArray) (peer peer2 : Option NodePtr)
    (stamp : Int) (pkt pkt2 : QByteArray) (stamp2 : Int) (h2 : stamp2 ≤ stamp) :
    ∃ r, (self.announcedRoute o peer stamp pkt).1.routes.find? o = some r ∧ stamp ≤ r.stamp ∧
      (self.announcedRoute o peer stamp pkt).1.announcedRoute o peer2 stamp2 pkt2
        = ((self.announcedRoute o peer stamp pkt).1, []) := by
  by_cases h : ∀ r, self.routes.find? o = some r → r.stamp < stamp
  · rw [announcedRoute_of_fresh self o peer stamp pkt h]
    have hf : ({ self with routes := self.routes.insert o ⟨peer, stamp⟩ } : InVpn).routes.find? o
        = some ⟨peer, stamp⟩ := QMap.find?_insert_self _ _ _
    exact ⟨_, hf, le_refl _, announcedRoute_of_stale _ o peer2 stamp2 pkt2 _ hf h2⟩
  · push_neg at h
    obtain ⟨r, hf, hle⟩ := h
    rw [announcedRoute_of_stale self o peer stamp pkt r hf hle]
    exact ⟨r, hf, hle, announcedRoute_of_stale self o peer2 stamp2 pkt2 r hf (by omega)⟩

/-- C2: for every origin and every sequence of announces for that origin fed
to `announcedRoute` in the given order from any route table, the stamps of the
accepted announces are strictly increasing, and afterwards the stored stamp of
the origin is the maximum of the initial stored stamp (if any) and the stamps
presented: it bounds each of them and is one of them.  In particular an
announce presented twice is stale the second time (accepted once and then
stale when it is new), and stamp 102 followed by stamp 100 accepts 102,
rejects 100 and leaves the stored stamp at 102 throughout. -/
theorem announcedRoute_accepted_increasing (self : InVpn) (o : QByteArray)
    (calls : List RouteCall) (h : ∀ c ∈ calls, c.mac = o) :
    ((self.announcedRouteAll calls).2.map RouteCall.stamp).Pairwise (· < ·) ∧
    (∀ x ∈ (self.routes.find? o).toList.map invpn_route_info.stamp ++ calls.map RouteCall.stamp,
        ∃ r, (self.announcedRouteAll calls).1.routes.find? o = some r ∧ x ≤ r.stamp) ∧
    (∀ r, (self.announcedRouteAll calls).1.routes.find? o = some r →
        r.stamp ∈ (self.routes.find? o).toList.map invpn_route_info.stamp
          ++ calls.map RouteCall.stamp) ∧
    (∀ peer stamp pkt,
        ((self.announcedRoute o peer stamp pkt).1.announcedRoute o peer stamp pkt).2 = [] ∧
        ((∀ r, self.routes.find? o = some r → r.stamp < stamp) →
          (self.announcedRouteAll [⟨o, peer, stamp, pkt⟩, ⟨o, peer, stamp, pkt⟩]).2
            = [⟨o, peer, stamp, pkt⟩])) ∧
    (∀ p1 p2 pkt1 pkt2, (∀ r, self.routes.find? o = some r → r.stamp < 102) →
        (self.announcedRouteAll [⟨o, p1, 102, pkt1⟩, ⟨o, p2, 100, pkt2⟩]).2
          = [⟨o, p1, 102, pkt1⟩] ∧
        ((self.announcedRoute o p1 102 pkt1).1.routes.find? o).map invpn_route_info.stamp
          = some 102 ∧
        ((self.announcedRouteAll [⟨o, p1, 102, pkt1⟩, ⟨o, p2, 100, pkt2⟩]).1.routes.find? o).map
          invpn_route_info.stamp = some 102) := by
  obtain ⟨_, i2, i3, i4, i5⟩ := announcedRouteAll_inv o calls h self
  refine ⟨i2, ?_, ?_, ?_, ?_⟩
  · intro x hx
    rcases List.mem_append.1 hx with hx | hx
    · obtain ⟨r0, h0, rfl⟩ := List.mem_map.1 hx
      exact i3 r0 (by simpa using h0)
    · obtain ⟨c, hc, rfl⟩ := List.mem_map.1 hx
      exact i4 c hc
  · intro r hr
    rcases i5 r hr with ⟨r0, h0, he⟩ | ⟨c, hc, he⟩
    · exact List.mem_append_left _ (List.mem_map.2 ⟨r0, by simp [h0], he⟩)
    · exact List.mem_append_right _ (List.mem_map.2 ⟨c, hc, he⟩)
  · intro peer stamp pkt
    obtain ⟨r, _, _, e2⟩ := announcedRoute_replay_stale self o peer peer stamp pkt pkt stamp (le_refl _)
    refine ⟨by rw [e2], fun hfresh => ?_⟩
    have e1 := announcedRoute_of_fresh self o peer stamp pkt hfresh
    rw [e1] at e2
    simp [announcedRouteAll, e1, e2]
  · intro p1 p2 pkt1 pkt2 hfresh
    obtain ⟨r, _, _, e2⟩ := announcedRoute_replay_stale self o p1 p2 102 pkt1 pkt2 100 (by decide)
    have e1 := announcedRoute_of_fresh self o p1 102 pkt1 hfresh
    rw [e1] at e2
    have hf : ({ self with routes := self.routes.insert o ⟨p1, 102⟩ } : InVpn).routes.find? o
        = some ⟨p1, 102⟩ := QMap.find?_insert_self _ _ _
    simp [announcedRouteAll, e1, e2, hf]

/-- C2 at a concrete run: stamps 100, 102, 100, 101, 102 on an empty table. -/
theorem announcedRoute_accepted_increasing_witness :
    (∀ c ∈ ([⟨[1], none, 100, []⟩, ⟨[1], some 7, 102, []⟩, ⟨[1], none, 100, []⟩,
        ⟨[1], none, 101, []⟩, ⟨[1], some 8, 102, []⟩] : List RouteCall), c.mac = [1]) ∧
    (((InVpn.mk [2] 0 QMap.empty QMap.empty none).announcedRouteAll
        [⟨[1], none, 100, []⟩, ⟨[1], some 7, 102, []⟩, ⟨[1], none, 100, []⟩,
          ⟨[1], none, 101, []⟩, ⟨[1], some 8, 102, []⟩]).2.map RouteCall.stamp = [100, 102]) ∧
    (((InVpn.mk [2] 0 QMap.empty QMap.empty none).announcedRouteAll
        [⟨[1], none, 100, []⟩, ⟨[1], some 7, 102, []⟩, ⟨[1], none, 100, []⟩,
          ⟨[1], none, 101, []⟩, ⟨[1], some 8, 102, []⟩]).2.map RouteCall.stamp).Pairwise
        (· < ·) :=
  ⟨by decide, by decide,
    (announcedRoute_accepted_increasing (InVpn.mk [2] 0 QMap.empty QMap.empty none) [1]
      [⟨[1], none, 100, []⟩, ⟨[1], some 7, 102, []⟩, ⟨[1], none, 100, []⟩,
        ⟨[1], none, 101, []⟩, ⟨[1], some 8, 102, []⟩] (by decide)).1⟩

/-- Within the `qint64` range the wrap-around is the identity. -/
theorem wrapInt64_of_isInt64 (x : Int) (h : isInt64 x) : wrapInt64 x = x := by
  unfold isInt64 INT64_MIN INT64_MAX at h
  unfold wrapInt64
  omega

/-- One call of `broadcastId` whose increment does not overflow. -/
theorem broadcastId_eq (self : InVpn) (now : Int) (hmin : INT64_MIN ≤ self.bc_last_id)
    (hno : now ≤ self.bc_last_id → self.bc_last_id < INT64_MAX) :
    self.broadcastId now
      = (max (self.bc_last_id + 1) now, { self with bc_last_id := max (self.bc_last_id + 1) now }) := by
  unfold broadcastId
  by_cases h : now ≤ self.bc_last_id
  · have hw : wrapInt64 (self.bc_last_id + 1) = self.bc_last_id + 1 := by
      apply wrapInt64_of_isInt64
      have := hno h
      unfold isInt64
      unfold INT64_MIN at *
      unfold INT64_MAX at *
      omega
    have hm : max (self.bc_last_id + 1) now = self.bc_last_id + 1 := max_eq_left (by omega)
    simp only [h, if_true, hw, hm]
  · have hm : max (self.bc_last_id + 1) now = now := max_eq_right (by omega)
    simp only [h, if_false, hm]

/-- The ids of a run without overflow go up strictly, from the stored id on. -/
theorem broadcastIdAll_chain (nows : List Int) (self : InVpn)
    (hmin : INT64_MIN ≤ self.bc_last_id) (hno : noOverflow self nows) :
    List.Chain (· < ·) self.bc_last_id (self.broadcastIdAll nows).1 ∧
    (∀ id ∈ (self.broadcastIdAll nows).1, id ≤ (self.broadcastIdAll nows).2.bc_last_id) ∧
    self.bc_last_id ≤ (self.broadcastIdAll nows).2.bc_last_id := by
  induction nows generalizing self with
  | nil => simp [broadcastIdAll]
  | cons now rest ih =>
    obtain ⟨h1, h2⟩ := hno
    have e := broadcastId_eq self now hmin h1
    rw [e] at h2
    have hlt : self.bc_last_id < max (self.bc_last_id + 1) now :=
      lt_of_lt_of_le (by omega) (le_max_left _ _)
    obtain ⟨c, b, m⟩ := ih { self with bc_last_id := max (self.bc_last_id + 1) now }
      (by simp only; omega) h2
    simp only [broadcastIdAll, e]
    simp only at c b m
    refine ⟨List.Chain.cons hlt c, ?_, by omega⟩
    intro id hid
    rcases List.mem_cons.1 hid with rfl | hid
    · exact m
    · exact b id hid

/-- C3: `broadcastId` returns max(bc_last_id + 1, now) and stores the value it
returns in bc_last_id, leaving the rest of the controller alone; hence over
any sequence of clock readings, repeated or decreasing ones included, every
call returns a value strictly greater than the one the call before returned
(and the first a value greater than the stored id) -- as long as no increment
overflows 64 bits. -/
theorem broadcastId_monotonic (self : InVpn) (nows : List Int)
    (hlast : isInt64 self.bc_last_id) (hno : noOverflow self nows) :
    (∀ now, (now ≤ self.bc_last_id → self.bc_last_id < INT64_MAX) →
        (self.broadcastId now).1 = max (self.bc_last_id + 1) now ∧
        (self.broadcastId now).2.bc_last_id = (self.broadcastId now).1 ∧
        (self.broadcastId now).2.routes = self.routes ∧
        (self.broadcastId now).2.nodes = self.nodes ∧
        (self.broadcastId now).2.mac = self.mac) ∧
    List.Chain' (· < ·) (self.broadcastIdAll nows).1 ∧
    List.Chain (· < ·) self.bc_last_id (self.broadcastIdAll nows).1 := by
  refine ⟨fun now h => ?_, ?_, (broadcastIdAll_chain nows self hlast.1 hno).1⟩
  · rw [broadcastId_eq self now hlast.1 h]
    exact ⟨rfl, rfl, rfl, rfl, rfl⟩
  · have c := (broadcastIdAll_chain nows self hlast.1 hno).1
    cases hl : (self.broadcastIdAll nows).1 with
    | nil => exact List.chain'_nil
    | cons a t =>
      rw [hl] at c
      exact (List.chain_cons.1 c).2

/-- C3 at a concrete run: three calls within millisecond 1000, an earlier
reading, then a later one. -/
theorem broadcastId_monotonic_witness :
    isInt64 (InVpn.mk [] 1000 QMap.empty QMap.empty none).bc_last_id ∧
    noOverflow (InVpn.mk [] 1000 QMap.empty QMap.empty none) [1000, 1000, 5, 2000] ∧
    ((InVpn.mk [] 1000 QMap.empty QMap.empty none).broadcastIdAll [1000, 1000, 5, 2000]).1
      = [1001, 1002, 1003, 2000] ∧
    List.Chain' (· < ·)
      ((InVpn.mk [] 1000 QMap.empty QMap.empty none).broadcastIdAll [1000, 1000, 5, 2000]).1 :=
  ⟨by decide, by decide, by decide,
    (broadcastId_monotonic (InVpn.mk [] 1000 QMap.empty QMap.empty none) [1000, 1000, 5, 2000]
      (by decide) (by decide)).2.1⟩

/-- The broadcast branch of `packet`, spelled out. -/
theorem packet_broadcast_eq (self : InVpn) (now : Int) (src_hw dst_hw data : QByteArray)
    (hsrc : src_hw = self.mac) (hdst : dst_hw = QByteArray.fill 6 (0xff : Byte)) :
    self.packet now src_hw dst_hw data
      = ((self.broadcastId now).2,
          [Effect.broadcast
            (qToBigEndian16 (quint16 (1 + (8 + src_hw.length + data.length)))
              ++ (0x81 : Byte) :: (qToBigEndian64 (self.broadcastId now).1 ++ src_hw ++ data))]) := by
  have h8 : ∀ x, (qToBigEndian64 x).length = 8 := fun _ => rfl
  simp only [packet, hsrc, hdst, ne_eq, not_true_eq_false, if_false, if_true, List.nil_append,
    QByteArray.size, List.length_cons, List.length_append, h8, List.append_assoc]
  have e : (8 + (self.mac.length + data.length) + 1) = (1 + (8 + self.mac.length + data.length)) := by
    omega
  rw [e]

/-- The unicast branch of `packet`, spelled out. -/
theorem packet_unicast_eq (self : InVpn) (now : Int) (src_hw dst_hw data : QByteArray)
    (hsrc : src_hw = self.mac) (hdst : dst_hw ≠ QByteArray.fill 6 (0xff : Byte))
    (hc : self.routes.contains dst_hw = true) :
    self.packet now src_hw dst_hw data
      = (self, self.route
          (qToBigEndian16 (quint16 (1 + (dst_hw.length + src_hw.length + data.length)))
            ++ (0x80 : Byte) :: (dst_hw ++ src_hw ++ data))) := by
  simp only [packet, hsrc, hdst, hc, ne_eq, not_true_eq_false, if_false, List.nil_append,
    QByteArray.size, List.length_cons, List.length_append, List.append_assoc, Bool.not_true,
    Bool.false_eq_true]
  have e : (dst_hw.length + (self.mac.length + data.length) + 1)
      = (1 + (dst_hw.length + self.mac.length + data.length)) := by omega
  rw [e]

/-- The first test of `packet`: a source other than the local MAC. -/
theorem packet_of_src_ne (self : InVpn) (now : Int) (src_hw dst_hw data : QByteArray)
    (h : src_hw ≠ self.mac) : self.packet now src_hw dst_hw data = (self, []) := by
  simp [packet, h]

/-- A packet for a destination without a route is dropped. -/
theorem packet_unroutable_eq (self : InVpn) (now : Int) (src_hw dst_hw data : QByteArray)
    (hsrc : src_hw = self.mac) (hdst : dst_hw ≠ QByteArray.fill 6 (0xff : Byte))
    (hc : self.routes.contains dst_hw = false) :
    self.packet now src_hw dst_hw data = (self, []) := by
  simp [packet, hsrc, hdst, hc]

/-- What `route` does with a frame, by cases. -/
theorem route_cases (self : InVpn) (pkt : QByteArray) :
    self.route pkt = [] ∨ ∃ peer, self.route pkt = [Effect.push peer pkt] := by
  unfold route
  by_cases h1 : pkt.at 2 ≠ some (0x80 : Byte)
  · simp [h1]
  · by_cases h2 : self.routes.contains (pkt.mid 3 6) = true
    · cases h3 : (self.routes.value (pkt.mid 3 6)).peer with
      | none => simp [h1, h2, h3]
      | some peer => exact Or.inr ⟨peer, by simp [h1, h2, h3]⟩
    · simp [h1, h2]

/-- Whether a length field followed by a kind and a payload is a frame. -/
theorem isFrame_build (kind : Byte) (n : Nat) (payload : QByteArray) :
    isFrame kind (qToBigEndian16 (quint16 n) ++ kind :: payload)
      = decide (n % 65536 = 1 + payload.length) := by
  have e : (n % 65536 / 256 % 256) * 256 + n % 65536 % 256 = n % 65536 := by omega
  simp [isFrame, qToBigEndian16, quint16, byte, e]

/-- The number read back from a length field. -/
theorem frameLength_build (n : Nat) (rest : QByteArray) :
    frameLength (qToBigEndian16 (quint16 n) ++ rest) = some (n % 65536) := by
  have e : (n % 65536 / 256 % 256) * 256 + n % 65536 % 256 = n % 65536 := by omega
  simp [frameLength, qToBigEndian16, quint16, byte, e]

/-- C4: a TAP packet whose source is not the local MAC is dropped: no frame
is broadcast or pushed and the controller (route table, bc_last_id and all)
is unchanged, for every destination, the broadcast address included. -/
theorem packet_foreign_source_dropped (self : InVpn) (now : Int) (src_hw dst_hw data : QByteArray)
    (h : src_hw ≠ self.mac) :
    self.packet now src_hw dst_hw data = (self, []) ∧
    (self.packet now src_hw dst_hw data).2 = [] ∧
    (self.packet now src_hw dst_hw data).1.routes = self.routes ∧
    (self.packet now src_hw dst_hw data).1.bc_last_id = self.bc_last_id := by
  rw [packet_of_src_ne self now src_hw dst_hw data h]
  exact ⟨rfl, rfl, rfl, rfl⟩

/-- C4 at a concrete packet: a foreign source sending to the broadcast
address, with a route table that is not empty. -/
theorem packet_foreign_source_dropped_witness :
    ([0xbb, 0xbb, 0xbb, 0xbb, 0xbb, 0xbb] : QByteArray)
        ≠ (InVpn.mk [0xaa, 0xaa, 0xaa, 0xaa, 0xaa, 0xaa] 7
            ⟨[([0xcc, 0xcc, 0xcc, 0xcc, 0xcc, 0xcc], ⟨some 1, 3⟩)]⟩ QMap.empty none).mac ∧
    (InVpn.mk [0xaa, 0xaa, 0xaa, 0xaa, 0xaa, 0xaa] 7
        ⟨[([0xcc, 0xcc, 0xcc, 0xcc, 0xcc, 0xcc], ⟨some 1, 3⟩)]⟩ QMap.empty none).packet 9
        [0xbb, 0xbb, 0xbb, 0xbb, 0xbb, 0xbb] (QByteArray.fill 6 0xff) [8, 0]
      = (InVpn.mk [0xaa, 0xaa, 0xaa, 0xaa, 0xaa, 0xaa] 7
          ⟨[([0xcc, 0xcc, 0xcc, 0xcc, 0xcc, 0xcc], ⟨some 1, 3⟩)]⟩ QMap.empty none, []) :=
  ⟨by decide,
    (packet_foreign_source_dropped _ 9 _ (QByteArray.fill 6 0xff) [8, 0] (by decide)).1⟩

/-- The id `broadcastId` returns is the one it stores, and it touches no
other member. -/
theorem broadcastId_frame (self : InVpn) (now : Int) :
    (self.broadcastId now).2 = { self with bc_last_id := (self.broadcastId now).1 } := by
  unfold broadcastId
  by_cases h : now ≤ self.bc_last_id <;> simp [h]

/-- The announce frame, spelled out. -/
theorem announce_eq (self : InVpn) (now : Int) :
    self.announce now
      = ((self.broadcastId now).2,
          [Effect.broadcast
            (qToBigEndian16 (quint16 (1 + (9 + self.mac.length)))
              ++ (0x00 : Byte) :: ((1 : Byte) :: (qToBigEndian64 (self.broadcastId now).1 ++ self.mac)))]) := by
  have h8 : ∀ x, (qToBigEndian64 x).length = 8 := fun _ => rfl
  have hm : (self.broadcastId now).2.mac = self.mac := by rw [broadcastId_frame]
  simp only [announce, List.nil_append, QByteArray.size, List.length_cons, List.length_append, h8,
    List.append_assoc, hm, List.singleton_append, List.cons_append]
  have e : (8 + self.mac.length + 1 + 1) = (1 + (9 + self.mac.length)) := by omega
  rw [e]

/-- C5, as amended: every byte string the controller builds and emits -- the
announce frame of `announce`, the broadcast and the unicast frame of `packet`
-- in which at most 65535 bytes follow the first two is one complete
well-formed frame: its first two bytes, read big-endian, count the bytes after
them and the third byte is the kind (0x00, 0x81, 0x80). -/
theorem emitted_frame_well_formed (self : InVpn) (now : Int) (src_hw dst_hw data : QByteArray) :
    (∃ f, (self.announce now).2 = [Effect.broadcast f] ∧ f.length = 12 + self.mac.length ∧
        (f.length ≤ 65537 → isFrame (0x00 : Byte) f = true)) ∧
    (∀ e ∈ (self.packet now src_hw dst_hw data).2, ∃ f, frameOf e = some f ∧
        (f.length ≤ 65537 →
          isFrame (if dst_hw = QByteArray.fill 6 (0xff : Byte) then (0x81 : Byte) else (0x80 : Byte)) f
            = true)) := by
  have h8 : ∀ x, (qToBigEndian64 x).length = 8 := fun _ => rfl
  have h2 : ∀ x, (qToBigEndian16 x).length = 2 := fun _ => rfl
  constructor
  · rw [announce_eq]
    refine ⟨_, rfl, ?_, ?_⟩
    · simp only [List.length_append, List.length_cons, h8, h2]
      omega
    · intro hlen
      simp only [List.length_append, List.length_cons, h8, h2] at hlen
      rw [isFrame_build]
      simp only [List.length_append, List.length_cons, h8, decide_eq_true_eq]
      omega
  · intro e he
    by_cases hsrc : src_hw = self.mac
    · by_cases hdst : dst_hw = QByteArray.fill 6 (0xff : Byte)
      · rw [packet_broadcast_eq self now src_hw dst_hw data hsrc hdst] at he
        simp only [List.mem_singleton] at he
        subst he
        refine ⟨_, rfl, fun hlen => ?_⟩
        simp only [List.length_append, List.length_cons, h8, h2] at hlen
        rw [if_pos hdst, isFrame_build]
        simp only [List.length_append, h8, decide_eq_true_eq]
        omega
      · cases hc : self.routes.contains dst_hw with
        | false =>
          rw [packet_unroutable_eq self now src_hw dst_hw data hsrc hdst hc] at he
          simp at he
        | true =>
          rw [packet_unicast_eq self now src_hw dst_hw data hsrc hdst hc] at he
          rcases route_cases self
            (qToBigEndian16 (quint16 (1 + (dst_hw.length + src_hw.length + data.length)))
              ++ (0x80 : Byte) :: (dst_hw ++ src_hw ++ data)) with hr | ⟨peer, hr⟩
          · rw [hr] at he
            simp at he
          · rw [hr] at he
            simp only [List.mem_singleton] at he
            subst he
            refine ⟨_, rfl, fun hlen => ?_⟩
            simp only [List.length_append, List.length_cons, h2] at hlen
            rw [if_neg hdst, isFrame_build]
            simp only [List.length_append, decide_eq_true_eq]
            omega
    · rw [packet_of_src_ne self now src_hw dst_hw data hsrc] at he
      simp at he

/-- C5 as amended, at a concrete packet: the unicast frame for "hi" from
aa:.. to bb:.. is pushed with length bytes 00 0f in front of its 15 bytes. -/
theorem emitted_frame_well_formed_witness :
    ((InVpn.mk [0xaa, 0xaa, 0xaa, 0xaa, 0xaa, 0xaa] 0
        ⟨[([0xbb, 0xbb, 0xbb, 0xbb, 0xbb, 0xbb], ⟨some 4, 2⟩)]⟩ QMap.empty none).packet 0
        [0xaa, 0xaa, 0xaa, 0xaa, 0xaa, 0xaa] [0xbb, 0xbb, 0xbb, 0xbb, 0xbb, 0xbb] [0x68, 0x69]).2
      = [Effect.push 4 [0x00, 0x0f, 0x80, 0xbb, 0xbb, 0xbb, 0xbb, 0xbb, 0xbb,
          0xaa, 0xaa, 0xaa, 0xaa, 0xaa, 0xaa, 0x68, 0x69]] ∧
    isFrame (0x80 : Byte) [0x00, 0x0f, 0x80, 0xbb, 0xbb, 0xbb, 0xbb, 0xbb, 0xbb,
        0xaa, 0xaa, 0xaa, 0xaa, 0xaa, 0xaa, 0x68, 0x69] = true := by
  have t := (emitted_frame_well_formed
    (InVpn.mk [0xaa, 0xaa, 0xaa, 0xaa, 0xaa, 0xaa] 0
      ⟨[([0xbb, 0xbb, 0xbb, 0xbb, 0xbb, 0xbb], ⟨some 4, 2⟩)]⟩ QMap.empty none) 0
    [0xaa, 0xaa, 0xaa, 0xaa, 0xaa, 0xaa] [0xbb, 0xbb, 0xbb, 0xbb, 0xbb, 0xbb] [0x68, 0x69]).2
    (Effect.push 4 [0x00, 0x0f, 0x80, 0xbb, 0xbb, 0xbb, 0xbb, 0xbb, 0xbb,
      0xaa, 0xaa, 0xaa, 0xaa, 0xaa, 0xaa, 0x68, 0x69]) (by decide)
  obtain ⟨f, hf, hw⟩ := t
  have e : [0x00, 0x0f, 0x80, 0xbb, 0xbb, 0xbb, 0xbb, 0xbb, 0xbb,
      0xaa, 0xaa, 0xaa, 0xaa, 0xaa, 0xaa, 0x68, 0x69] = f := Option.some.inj hf
  subst e
  exact ⟨by decide, hw (by decide)⟩

/-- A TAP broadcast whose payload has 65521 bytes: the length field wraps. -/
theorem packet_broadcast_length_wraps (self : InVpn) (now : Int) (src_hw data : QByteArray)
    (hsrc : src_hw = self.mac) (hmac : src_hw.length = 6) (hdata : data.length = 65521) :
    (self.packet now src_hw (QByteArray.fill 6 0xff) data).2.map
      (fun e => (frameOf e).map (fun f => (frameLength f, f.length - 2, isFrame (0x81 : Byte) f)))
      = [some (some 0, 65536, false)] := by
  rw [packet_broadcast_eq self now src_hw _ data hsrc rfl]
  have h8 : ∀ x, (qToBigEndian64 x).length = 8 := fun _ => rfl
  have h2 : ∀ x, (qToBigEndian16 x).length = 2 := fun _ => rfl
  simp only [List.map_cons, List.map_nil, frameOf, Option.map_some', isFrame_build,
    frameLength_build, List.length_append, List.length_cons, h8, h2, hmac, hdata]
  decide

/-- C5 fails as stated: a TAP broadcast with an Ethernet payload of 65521
bytes is emitted as a byte string of 65538 bytes whose first two bytes read 0,
while 65536 bytes follow them. -/
theorem emitted_frame_length_wraps :
    ((InVpn.mk [0xaa, 0xaa, 0xaa, 0xaa, 0xaa, 0xaa] 0 QMap.empty QMap.empty none).packet 1
        [0xaa, 0xaa, 0xaa, 0xaa, 0xaa, 0xaa] (QByteArray.fill 6 0xff)
        (List.replicate 65521 (0 : Byte))).2.map
      (fun e => (frameOf e).map (fun f => (frameLength f, f.length - 2, isFrame (0x81 : Byte) f)))
      = [some (some 0, 65536, false)] :=
  packet_broadcast_length_wraps _ 1 _ _ rfl rfl (List.length_replicate _ _)

/-- C6, the code at the failing input: a handshake whose certificate MAC is
the local MAC, on a controller with an empty registry.  The socket is
scheduled for deletion, and then a node for the local MAC is inserted into
`nodes` all the same, `setLink` is called on it and it holds the socket as its
link. -/
theorem socketReady_self_is_registered :
    (InVpn.mk [0xaa, 0xaa, 0xaa, 0xaa, 0xaa, 0xaa] 0 QMap.empty QMap.empty none).socketReady
        (some 5) [0xaa, 0xaa, 0xaa, 0xaa, 0xaa, 0xaa]
      = (InVpn.mk [0xaa, 0xaa, 0xaa, 0xaa, 0xaa, 0xaa] 0 QMap.empty
            ⟨[([0xaa, 0xaa, 0xaa, 0xaa, 0xaa, 0xaa],
                { mac := [0xaa, 0xaa, 0xaa, 0xaa, 0xaa, 0xaa], link := some 5 })]⟩ none,
          [Effect.disconnect 5, Effect.deleteLater 5,
            Effect.connectBroadcast [0xaa, 0xaa, 0xaa, 0xaa, 0xaa, 0xaa],
            Effect.setLink [0xaa, 0xaa, 0xaa, 0xaa, 0xaa, 0xaa] 5]) := by
  decide

/-- The frame `route` is given by `packet` carries the kind 0x80 at offset 2
and, for a 6-byte destination, the destination at offsets 3 to 8. -/
theorem unicast_frame_fields (n : Nat) (dst_hw rest : QByteArray) (hlen : dst_hw.length = 6) :
    QByteArray.at (qToBigEndian16 n ++ (0x80 : Byte) :: (dst_hw ++ rest)) 2 = some (0x80 : Byte) ∧
    QByteArray.mid (qToBigEndian16 n ++ (0x80 : Byte) :: (dst_hw ++ rest)) 3 6 = dst_hw := by
  constructor
  · simp [QByteArray.at, qToBigEndian16]
  · simp only [QByteArray.mid, qToBigEndian16, List.cons_append, List.nil_append, List.drop_succ_cons,
      List.drop_zero]
    exact List.take_left' hlen

/-- A routed unicast packet: the one frame `packet` pushes, with its length
field as `quint16` leaves it. -/
theorem packet_unicast_push_eq (self : InVpn) (now : Int) (src_hw dst_hw data : QByteArray)
    (hsrc : src_hw = self.mac) (hlen : dst_hw.length = 6)
    (hdst : dst_hw ≠ QByteArray.fill 6 (0xff : Byte)) (r : invpn_route_info) (peer : NodePtr)
    (hr : self.routes.find? dst_hw = some r) (hp : r.peer = some peer) :
    self.packet now src_hw dst_hw data
      = (self, [Effect.push peer
          (qToBigEndian16 (quint16 (1 + (dst_hw.length + src_hw.length + data.length)))
            ++ (0x80 : Byte) :: (dst_hw ++ src_hw ++ data))]) := by
  have hf := unicast_frame_fields (quint16 (1 + (dst_hw.length + src_hw.length + data.length)))
    dst_hw (src_hw ++ data) hlen
  rw [← List.append_assoc] at hf
  have hc : self.routes.contains dst_hw = true := (QMap.contains_iff _ _).2 ⟨r, hr⟩
  have hv : self.routes.value dst_hw = r := QMap.value_of_find? _ _ _ hr
  rw [packet_unicast_eq self now src_hw dst_hw data hsrc hdst hc]
  simp only [route, hf.1, hf.2, hc, hv, hp, ne_eq, not_true_eq_false, if_false, Bool.not_true,
    Bool.false_eq_true]

/-- A unicast packet whose route has a null next hop is dropped by `route`. -/
theorem packet_unicast_null_peer_eq (self : InVpn) (now : Int) (src_hw dst_hw data : QByteArray)
    (hsrc : src_hw = self.mac) (hlen : dst_hw.length = 6)
    (hdst : dst_hw ≠ QByteArray.fill 6 (0xff : Byte)) (r : invpn_route_info)
    (hr : self.routes.find? dst_hw = some r) (hp : r.peer = none) :
    self.packet now src_hw dst_hw data = (self, []) := by
  have hf := unicast_frame_fields (quint16 (1 + (dst_hw.length + src_hw.length + data.length)))
    dst_hw (src_hw ++ data) hlen
  rw [← List.append_assoc] at hf
  have hc : self.routes.contains dst_hw = true := (QMap.contains_iff _ _).2 ⟨r, hr⟩
  have hv : self.routes.value dst_hw = r := QMap.value_of_find? _ _ _ hr
  rw [packet_unicast_eq self now src_hw dst_hw data hsrc hdst hc]
  simp only [route, hf.1, hf.2, hc, hv, hp, ne_eq, not_true_eq_false, if_false, Bool.not_true,
    Bool.false_eq_true]

/-- Within sixteen bits the conversion to `quint16` keeps the size. -/
theorem quint16_of_le (n : Nat) (h : n ≤ 65535) : quint16 n = n := by
  unfold quint16
  omega

/-- A routed unicast packet whose payload has 65523 bytes, between 6-byte
addresses: the length field of the pushed frame wraps. -/
theorem packet_unicast_length_wraps_of (self : InVpn) (now : Int) (src_hw dst_hw data : QByteArray)
    (hsrc : src_hw = self.mac) (hmac : src_hw.length = 6) (hlen : dst_hw.length = 6)
    (hdst : dst_hw ≠ QByteArray.fill 6 (0xff : Byte)) (r : invpn_route_info) (peer : NodePtr)
    (hr : self.routes.find? dst_hw = some r) (hp : r.peer = some peer)
    (hdata : data.length = 65523) :
    (self.packet now src_hw dst_hw data).2.map
      (fun e => (frameOf e).map (fun f => (frameLength f, f.length - 2, f.take 3)))
      = [some (some 0, 65536, [0x00, 0x00, 0x80])] := by
  rw [packet_unicast_push_eq self now src_hw dst_hw data hsrc hlen hdst r peer hr hp]
  have h2 : ∀ x, (qToBigEndian16 x).length = 2 := fun _ => rfl
  simp only [List.map_cons, List.map_nil, frameOf, Option.map_some', frameLength_build,
    List.length_append, List.length_cons, h2, hmac, hlen, hdata]
  have e : qToBigEndian16 (quint16 (1 + (6 + 6 + 65523))) = [0x00, 0x00] := by decide
  rw [e]
  simp

/-- C7 fails as stated: with the local MAC aa:aa:aa:aa:aa:aa as source, the
6-byte destination bb:bb:bb:bb:bb:bb routed through node 4 and an Ethernet
payload of 65523 bytes, the one string `packet` pushes starts 00 00 80: its
length field reads 0 while 65536 bytes (0x80, destination, source, payload)
follow it. -/
theorem packet_unicast_length_wraps :
    ((InVpn.mk [0xaa, 0xaa, 0xaa, 0xaa, 0xaa, 0xaa] 0
        ⟨[([0xbb, 0xbb, 0xbb, 0xbb, 0xbb, 0xbb], ⟨some 4, 2⟩)]⟩ QMap.empty none).packet 0
        [0xaa, 0xaa, 0xaa, 0xaa, 0xaa, 0xaa] [0xbb, 0xbb, 0xbb, 0xbb, 0xbb, 0xbb]
        (List.replicate 65523 (0 : Byte))).2.map
      (fun e => (frameOf e).map (fun f => (frameLength f, f.length - 2, f.take 3)))
      = [some (some 0, 65536, [0x00, 0x00, 0x80])] :=
  packet_unicast_length_wraps_of _ 0 _ _ _ rfl rfl rfl (by decide) ⟨some 4, 2⟩ 4 (by decide) rfl
    (List.length_replicate _ _)

/-- C7, as amended: a TAP packet from the local MAC to a 6-byte destination
other than ff:ff:ff:ff:ff:ff, with a payload for which kind, destination,
source and payload together are at most 65535 bytes.  If the route table has
an entry for the destination with a non-null next hop, `packet` changes nothing
in the controller and pushes exactly one frame, to that next hop and to nobody
else (nothing is broadcast); the frame is the two-byte big-endian count of the
bytes after it, then 0x80, the destination, the source and the payload, and
`route` reads back from it the kind 0x80 and the very destination `packet`
looked up.  If the table has no entry for the destination (or one with a null
next hop), nothing is pushed or broadcast. -/
theorem packet_unicast_routed (self : InVpn) (now : Int) (src_hw dst_hw data : QByteArray)
    (hsrc : src_hw = self.mac) (hlen : dst_hw.length = 6)
    (hdst : dst_hw ≠ QByteArray.fill 6 (0xff : Byte))
    (hsize : 1 + (dst_hw.length + src_hw.length + data.length) ≤ 65535) :
    (∀ r peer, self.routes.find? dst_hw = some r → r.peer = some peer →
        self.packet now src_hw dst_hw data
          = (self, [Effect.push peer
              (qToBigEndian16 (1 + (dst_hw.length + src_hw.length + data.length))
                ++ (0x80 : Byte) :: (dst_hw ++ src_hw ++ data))])) ∧
    (QByteArray.at (qToBigEndian16 (1 + (dst_hw.length + src_hw.length + data.length))
        ++ (0x80 : Byte) :: (dst_hw ++ src_hw ++ data)) 2 = some (0x80 : Byte) ∧
      QByteArray.mid (qToBigEndian16 (1 + (dst_hw.length + src_hw.length + data.length))
        ++ (0x80 : Byte) :: (dst_hw ++ src_hw ++ data)) 3 6 = dst_hw) ∧
    (frameLength (qToBigEndian16 (1 + (dst_hw.length + src_hw.length + data.length))
        ++ (0x80 : Byte) :: (dst_hw ++ src_hw ++ data))
      = some (1 + (dst_hw.length + src_hw.length + data.length)) ∧
      isFrame (0x80 : Byte) (qToBigEndian16 (1 + (dst_hw.length + src_hw.length + data.length))
        ++ (0x80 : Byte) :: (dst_hw ++ src_hw ++ data)) = true) ∧
    (self.routes.find? dst_hw = none → self.packet now src_hw dst_hw data = (self, [])) ∧
    (∀ r, self.routes.find? dst_hw = some r → r.peer = none →
        self.packet now src_hw dst_hw data = (self, [])) := by
  have hq := quint16_of_le _ hsize
  have hf := unicast_frame_fields (1 + (dst_hw.length + src_hw.length + data.length))
    dst_hw (src_hw ++ data) hlen
  rw [← List.append_assoc] at hf
  have hl := frameLength_build (1 + (dst_hw.length + src_hw.length + data.length))
    ((0x80 : Byte) :: (dst_hw ++ src_hw ++ data))
  have hi := isFrame_build (0x80 : Byte) (1 + (dst_hw.length + src_hw.length + data.length))
    (dst_hw ++ src_hw ++ data)
  rw [hq] at hl hi
  refine ⟨?_, hf, ⟨?_, ?_⟩, ?_, ?_⟩
  · intro r peer hr hp
    have e := packet_unicast_push_eq self now src_hw dst_hw data hsrc hlen hdst r peer hr hp
    rw [hq] at e
    exact e
  · rw [hl]
    exact congrArg some hq
  · rw [hi]
    simp only [List.length_append, decide_eq_true_eq]
    omega
  · intro hn
    exact packet_unroutable_eq self now src_hw dst_hw data hsrc hdst
      ((QMap.contains_eq_false_iff _ _).2 hn)
  · intro r hr hp
    exact packet_unicast_null_peer_eq self now src_hw dst_hw data hsrc hlen hdst r hr hp

/-- C7 as amended, at a concrete packet: "hi" from aa:.. to bb:.., routed
through node 4 while another route through node 9 exists. -/
theorem packet_unicast_routed_witness :
    (InVpn.mk [0xaa, 0xaa, 0xaa, 0xaa, 0xaa, 0xaa] 0
        ⟨[([0xcc, 0xcc, 0xcc, 0xcc, 0xcc, 0xcc], ⟨some 9, 1⟩),
          ([0xbb, 0xbb, 0xbb, 0xbb, 0xbb, 0xbb], ⟨some 4, 2⟩)]⟩ QMap.empty none).packet 0
        [0xaa, 0xaa, 0xaa, 0xaa, 0xaa, 0xaa] [0xbb, 0xbb, 0xbb, 0xbb, 0xbb, 0xbb] [0x68, 0x69]
      = (InVpn.mk [0xaa, 0xaa, 0xaa, 0xaa, 0xaa, 0xaa] 0
          ⟨[([0xcc, 0xcc, 0xcc, 0xcc, 0xcc, 0xcc], ⟨some 9, 1⟩),
            ([0xbb, 0xbb, 0xbb, 0xbb, 0xbb, 0xbb], ⟨some 4, 2⟩)]⟩ QMap.empty none,
          [Effect.push 4 [0x00, 0x0f, 0x80, 0xbb, 0xbb, 0xbb, 0xbb, 0xbb, 0xbb,
            0xaa, 0xaa, 0xaa, 0xaa, 0xaa, 0xaa, 0x68, 0x69]]) :=
  (packet_unicast_routed
    (InVpn.mk [0xaa, 0xaa, 0xaa, 0xaa, 0xaa, 0xaa] 0
      ⟨[([0xcc, 0xcc, 0xcc, 0xcc, 0xcc, 0xcc], ⟨some 9, 1⟩),
        ([0xbb, 0xbb, 0xbb, 0xbb, 0xbb, 0xbb], ⟨some 4, 2⟩)]⟩ QMap.empty none) 0
    [0xaa, 0xaa, 0xaa, 0xaa, 0xaa, 0xaa] [0xbb, 0xbb, 0xbb, 0xbb, 0xbb, 0xbb] [0x68, 0x69]
    (by decide) (by decide) (by decide) (by decide)).1 ⟨some 4, 2⟩ 4 (by decide) rfl

/-- C9 fails as stated: on the empty route table, one call of
`announcedRoute` whose origin is the local MAC puts an entry for the local MAC
into the table (and re-broadcasts the packet). -/
theorem announcedRoute_admits_local_mac :
    ((InVpn.mk [0xaa, 0xaa, 0xaa, 0xaa, 0xaa, 0xaa] 0 QMap.empty QMap.empty none).announcedRouteAll
        [⟨[0xaa, 0xaa, 0xaa, 0xaa, 0xaa, 0xaa], some 3, 100, [0x00, 0x01, 0x00]⟩]).1.routes.find?
        [0xaa, 0xaa, 0xaa, 0xaa, 0xaa, 0xaa]
      = some ⟨some 3, 100⟩ ∧
    (InVpn.mk [0xaa, 0xaa, 0xaa, 0xaa, 0xaa, 0xaa] 0 QMap.empty QMap.empty none).announcedRoute
        [0xaa, 0xaa, 0xaa, 0xaa, 0xaa, 0xaa] (some 3) 100 [0x00, 0x01, 0x00]
      = (InVpn.mk [0xaa, 0xaa, 0xaa, 0xaa, 0xaa, 0xaa] 0
          ⟨[([0xaa, 0xaa, 0xaa, 0xaa, 0xaa, 0xaa], ⟨some 3, 100⟩)]⟩ QMap.empty none,
        [Effect.broadcast [0x00, 0x01, 0x00]]) := by
  decide

/-- A call of `announcedRoute` touches no key but its own. -/
theorem announcedRoute_find?_of_ne (self : InVpn) (mac k : QByteArray) (peer : Option NodePtr)
    (stamp : Int) (pkt : QByteArray) (hk : k ≠ mac) :
    (self.announcedRoute mac peer stamp pkt).1.routes.find? k = self.routes.find? k := by
  by_cases h : ∀ r, self.routes.find? mac = some r → r.stamp < stamp
  · rw [announcedRoute_of_fresh self mac peer stamp pkt h]
    exact QMap.find?_insert_of_ne _ _ _ _ hk
  · push_neg at h
    obtain ⟨r, hf, hle⟩ := h
    rw [announcedRoute_of_stale self mac peer stamp pkt r hf hle]

/-- A run of `announcedRoute` calls leaves alone every key none of them names. -/
theorem announcedRouteAll_find?_of_not_mem (k : QByteArray) (calls : List RouteCall)
    (h : ∀ c ∈ calls, c.mac ≠ k) (self : InVpn) :
    (self.announcedRouteAll calls).1.routes.find? k = self.routes.find? k ∧
    (self.announcedRouteAll calls).1.mac = self.mac := by
  induction calls generalizing self with
  | nil => exact ⟨rfl, rfl⟩
  | cons c rest ih =>
    have hc : k ≠ c.mac := fun e => h c (List.mem_cons_self _ _) e.symm
    obtain ⟨i1, i2⟩ := ih (fun c' hc' => h c' (List.mem_cons_of_mem _ hc'))
      (self.announcedRoute c.mac c.peer c.stamp c.pkt).1
    simp only [announcedRouteAll]
    rw [i1, i2]
    exact ⟨announcedRoute_find?_of_ne self c.mac k c.peer c.stamp c.pkt hc,
      (announcedRoute_frame self c.mac c.peer c.stamp c.pkt).1⟩

/-- C9, as amended: starting from the empty route table, after any sequence
of `announcedRoute` calls none of which names the local MAC as its origin
(with any peer and stamp arguments), the route table has no entry whose key is
the local MAC. -/
theorem announcedRoute_never_local_mac (self : InVpn) (calls : List RouteCall)
    (hempty : self.routes = QMap.empty) (h : ∀ c ∈ calls, c.mac ≠ self.mac) :
    (self.announcedRouteAll calls).1.routes.find? (self.announcedRouteAll calls).1.mac = none ∧
    (self.announcedRouteAll calls).1.routes.contains self.mac = false ∧
    (self.announcedRouteAll calls).1.mac = self.mac := by
  obtain ⟨i1, i2⟩ := announcedRouteAll_find?_of_not_mem self.mac calls h self
  have he : self.routes.find? self.mac = none := by
    rw [hempty]
    rfl
  rw [i2]
  exact ⟨by rw [i1, he], (QMap.contains_eq_false_iff _ _).2 (by rw [i1, he]), rfl⟩

/-- C9 as amended, at a concrete run of announces from two other origins. -/
theorem announcedRoute_never_local_mac_witness :
    (InVpn.mk [0xaa] 0 QMap.empty QMap.empty none).routes = QMap.empty ∧
    (∀ c ∈ ([⟨[0xbb], some 1, 5, []⟩, ⟨[0xcc], some 1, 6, []⟩, ⟨[0xbb], some 2, 7, []⟩]
        : List RouteCall), c.mac ≠ (InVpn.mk [0xaa] 0 QMap.empty QMap.empty none).mac) ∧
    ((InVpn.mk [0xaa] 0 QMap.empty QMap.empty none).announcedRouteAll
        [⟨[0xbb], some 1, 5, []⟩, ⟨[0xcc], some 1, 6, []⟩, ⟨[0xbb], some 2, 7, []⟩]).1.routes
      = ⟨[([0xbb], ⟨some 2, 7⟩), ([0xcc], ⟨some 1, 6⟩)]⟩ ∧
    ((InVpn.mk [0xaa] 0 QMap.empty QMap.empty none).announcedRouteAll
        [⟨[0xbb], some 1, 5, []⟩, ⟨[0xcc], some 1, 6, []⟩, ⟨[0xbb], some 2, 7, []⟩]).1.routes.contains
        [0xaa] = false :=
  ⟨rfl, by decide, by decide,
    (announcedRoute_never_local_mac (InVpn.mk [0xaa] 0 QMap.empty QMap.empty none)
      [⟨[0xbb], some 1, 5, []⟩, ⟨[0xcc], some 1, 6, []⟩, ⟨[0xbb], some 2, 7, []⟩]
      rfl (by decide)).2.1⟩

/-- No index for a character that does not occur. -/
theorem indexOf_eq_none (s : QString) (c : Char) (h : c ∉ s) : QString.indexOf s c = none := by
  induction s with
  | nil => rfl
  | cons x t ih =>
    have hx : ¬ x = c := fun e => h (e ▸ List.mem_cons_self _ _)
    have ht : c ∉ t := fun m => h (List.mem_cons_of_mem _ m)
    simp [QString.indexOf, hx, ih ht]

/-- The first occurrence is found after a prefix free of the character. -/
theorem indexOf_append (m rest : QString) (c : Char) (h : c ∉ m) :
    QString.indexOf (m ++ c :: rest) c = some m.length := by
  induction m with
  | nil => simp [QString.indexOf]
  | cons x t ih =>
    have hx : ¬ x = c := fun e => h (e ▸ List.mem_cons_self _ _)
    have ht : c ∉ t := fun m => h (List.mem_cons_of_mem _ m)
    simp [QString.indexOf, hx, ih ht]

/-- No last index for a character that does not occur. -/
theorem lastIndexOf_eq_none (s : QString) (c : Char) (h : c ∉ s) :
    QString.lastIndexOf s c = none := by
  induction s with
  | nil => rfl
  | cons x t ih =>
    have hx : ¬ x = c := fun e => h (e ▸ List.mem_cons_self _ _)
    have ht : c ∉ t := fun m => h (List.mem_cons_of_mem _ m)
    simp [QString.lastIndexOf, hx, ih ht]

/-- The last occurrence is found before a suffix free of the character. -/
theorem lastIndexOf_append (a p : QString) (c : Char) (h : c ∉ p) :
    QString.lastIndexOf (a ++ c :: p) c = some a.length := by
  induction a with
  | nil => simp [QString.lastIndexOf, lastIndexOf_eq_none p c h]
  | cons x t ih => simp [QString.lastIndexOf, ih]

/-- What `tryConnect` does with a seed that has an `@` and a colon after it:
the seed is cut at the first `@` and at the last colon. -/
theorem tryConnect_split (toInt : QString → Int) (isNull : QString → Bool) (self : InVpn)
    (m a p : QString) (hcount : (self.nodes.entries.filter (fun e => e.2.isLinked)).length < 2)
    (hseed : self.init_seed = some (m ++ '@' :: (a ++ ':' :: p)))
    (hm : '@' ∉ m) (hp : ':' ∉ p) :
    tryConnect toInt isNull self
      = if isNull (if a.head? = some '[' && a.getLast? = some ']' then
            QString.mid a 1 (a.length - 2) else a) then []
        else [Effect.connectToHost
          (if a.head? = some '[' && a.getLast? = some ']' then QString.mid a 1 (a.length - 2) else a)
          (quint16OfInt (toInt p)) m] := by
  have hc : ¬ (self.nodes.entries.filter (fun e => e.2.isLinked)).length ≥ 2 := by omega
  have h1 : QString.midFrom (m ++ '@' :: (a ++ ':' :: p)) (m.length + 1) = a ++ ':' :: p := by
    simp [QString.midFrom]
  have h2 : QString.mid (m ++ '@' :: (a ++ ':' :: p)) 0 m.length = m := by
    simp [QString.mid]
  have h3 : QString.midFrom (a ++ ':' :: p) (a.length + 1) = p := by
    simp [QString.midFrom]
  have h4 : QString.mid (a ++ ':' :: p) 0 a.length = a := by
    simp [QString.mid]
  simp only [tryConnect, hc, if_false, hseed, indexOf_append m _ '@' hm, h1, h2,
    lastIndexOf_append a p ':' hp, h3, h4]

/-- Stripping the brackets of a bracketed host gives the host back. -/
theorem bracketed_host (h : QString) :
    (('[' :: (h ++ [']'])).head? = some '[' && ('[' :: (h ++ [']'])).getLast? = some ']') = true ∧
    QString.mid ('[' :: (h ++ [']'])) 1 (('[' :: (h ++ [']'])).length - 2) = h := by
  constructor
  · have e : ('[' :: (h ++ [']'])).getLast? = some ']' := List.getLast?_concat ('[' :: h)
    simp [e]
  · simp [QString.mid]

/-- A port number read by `toInt` is passed on as it is. -/
theorem quint16OfInt_port (port : Nat) (h : port < 65536) : quint16OfInt (port : Int) = port := by
  unfold quint16OfInt
  omega

/-- C10: reconnect logic of `tryConnect`.  With two or more linked peers in
the registry no connection is attempted.  With fewer than two, a seed M@H:P or
M@[H]:P -- M without `@`, P without colon and read by `QString::toInt` as a
port number, H non-empty, not itself enclosed in brackets, and accepted by
`QHostAddress` -- gives exactly one connection attempt, to host H (brackets
stripped) on port P with expected peer name M, the seed being cut at its first
`@` and its last colon.  An unset seed, a seed without `@`, or a seed without
a colon after the `@` gives no connection attempt. -/
theorem tryConnect_seed (toInt : QString → Int) (isNull : QString → Bool) (self : InVpn) :
    (2 ≤ (self.nodes.entries.filter (fun e => e.2.isLinked)).length →
        tryConnect toInt isNull self = []) ∧
    ((self.nodes.entries.filter (fun e => e.2.isLinked)).length < 2 →
        ∀ (m h p : QString) (port : Nat), '@' ∉ m → ':' ∉ p → toInt p = (port : Int) →
          port < 65536 → h ≠ [] → isNull h = false →
          (¬ (h.head? = some '[' ∧ h.getLast? = some ']') →
            self.init_seed = some (m ++ '@' :: (h ++ ':' :: p)) →
            tryConnect toInt isNull self = [Effect.connectToHost h port m]) ∧
          (self.init_seed = some (m ++ '@' :: ('[' :: (h ++ ']' :: ':' :: p))) →
            tryConnect toInt isNull self = [Effect.connectToHost h port m])) ∧
    (self.init_seed = none → tryConnect toInt isNull self = []) ∧
    (∀ seed, self.init_seed = some seed → '@' ∉ seed → tryConnect toInt isNull self = []) ∧
    (∀ m rest, self.init_seed = some (m ++ '@' :: rest) → '@' ∉ m → ':' ∉ rest →
        tryConnect toInt isNull self = []) := by
  refine ⟨?_, ?_, ?_, ?_, ?_⟩
  · intro h2
    simp [tryConnect, h2]
  · intro hcount m h p port hm hp hport hlt _ hnull
    constructor
    · intro hb hseed
      rw [tryConnect_split toInt isNull self m h p hcount hseed hm hp]
      have hb2 : (h.head? = some '[' && h.getLast? = some ']') = false := by
        simpa using hb
      simp only [hb2, Bool.false_eq_true, if_false, hnull, hport, quint16OfInt_port port hlt]
    · intro hseed
      have hseed2 : self.init_seed = some (m ++ '@' :: (('[' :: (h ++ [']'])) ++ ':' :: p)) := by
        rw [hseed]
        simp
      rw [tryConnect_split toInt isNull self m _ p hcount hseed2 hm hp]
      obtain ⟨b1, b2⟩ := bracketed_host h
      rw [if_pos b1, b2]
      simp only [Bool.false_eq_true, if_false, hnull, hport, quint16OfInt_port port hlt]
  · intro hnone
    by_cases hc : (self.nodes.entries.filter (fun e => e.2.isLinked)).length ≥ 2
    · simp [tryConnect, hc]
    · simp [tryConnect, hc, hnone]
  · intro seed hseed hat
    by_cases hc : (self.nodes.entries.filter (fun e => e.2.isLinked)).length ≥ 2
    · simp [tryConnect, hc]
    · simp [tryConnect, hc, hseed, indexOf_eq_none seed '@' hat]
  · intro m rest hseed hm hrest
    by_cases hc : (self.nodes.entries.filter (fun e => e.2.isLinked)).length ≥ 2
    · simp [tryConnect, hc]
    · have h1 : QString.midFrom (m ++ '@' :: rest) (m.length + 1) = rest := by
        simp [QString.midFrom]
      simp only [tryConnect, hc, if_false, hseed, indexOf_append m rest '@' hm, h1,
        lastIndexOf_eq_none rest ':' hrest]

/-- C10 at a concrete controller: one linked peer, seed aa:bb@[::1]:4174, a
`toInt` that reads decimal digits and a `QHostAddress` that accepts ::1. -/
theorem tryConnect_seed_witness :
    tryConnect (fun p => p.foldl (fun acc c => 10 * acc + ((c.toNat : Int) - 48)) 0)
        (fun h => decide (h ≠ [':', ':', '1']))
        (InVpn.mk [0xaa] 0 QMap.empty ⟨[([0xbb], ⟨[0xbb], some 1⟩), ([0xcc], ⟨[0xcc], none⟩)]⟩
          (some ['a', 'a', ':', 'b', 'b', '@', '[', ':', ':', '1', ']', ':', '4', '1', '7', '4']))
      = [Effect.connectToHost [':', ':', '1'] 4174 ['a', 'a', ':', 'b', 'b']] := by
  have t := (tryConnect_seed (fun p => p.foldl (fun acc c => 10 * acc + ((c.toNat : Int) - 48)) 0)
      (fun h => decide (h ≠ [':', ':', '1']))
      (InVpn.mk [0xaa] 0 QMap.empty ⟨[([0xbb], ⟨[0xbb], some 1⟩), ([0xcc], ⟨[0xcc], none⟩)]⟩
        (some ['a', 'a', ':', 'b', 'b', '@', '[', ':', ':', '1', ']', ':', '4', '1', '7', '4']))).2.1
  have c : (List.filter (fun e => e.2.isLinked)
      (InVpn.mk [0xaa] 0 QMap.empty ⟨[([0xbb], ⟨[0xbb], some 1⟩), ([0xcc], ⟨[0xcc], none⟩)]⟩
        (some ['a', 'a', ':', 'b', 'b', '@', '[', ':', ':', '1', ']', ':', '4', '1', '7', '4'])).nodes.entries).length < 2 := by
    decide
  have t2 := t c ['a', 'a', ':', 'b', 'b'] [':', ':', '1'] ['4', '1', '7', '4'] 4174
    (by decide) (by decide) (by simp) (by decide) (by decide) (by decide)
  exact t2.2 rfl

end InVpn
